import Mathlib

/-!
# Verification of the metadata embedding subsystem

Shallow embedding of `src/helpers/metadata-generator.js` (`addImageMetadata`
and the four per-format handlers), together with the Node.js `path` functions
it uses (`extname`, `dirname`, `basename`, `join`) modelled faithfully from
Node's POSIX path semantics, and JavaScript `String.prototype.toLowerCase`
restricted to the ASCII range (all supported extensions are ASCII).

Effects are made explicit: the filesystem and the sharp encoder are an
environment (`Env`), and each call returns the ordered list of file
operations it performed (`Op`) together with its JavaScript result
(`Except JsError EmbedResult`).  JavaScript `Error` values are a pair of a
class name and a message; every `new Error(msg)` in the source yields
`⟨"Error", msg⟩`.
-/

/-- JavaScript `toLowerCase` for the ASCII paths the program compares. -/
def jsToLower (s : String) : String := ⟨s.data.map Char.toLower⟩

/-- Last path component of a POSIX path: strip trailing separators, then take
the maximal separator-free suffix. -/
def lastComponentL (p : List Char) : List Char :=
  ((p.reverse.dropWhile (fun c => c = '/')).takeWhile (fun c => c ≠ '/')).reverse

/-- Extension of a single path component, per Node `path.posix.extname`:
empty when there is no dot, when the only dot region starts the component
(dotfiles, `.`), or when the component is exactly `..`; otherwise the suffix
from the last dot. -/
def extOfComponent (comp : List Char) : List Char :=
  let afterDot := comp.reverse.takeWhile (fun c => c ≠ '.')
  if afterDot.length = comp.length then []
  else if comp.length - 1 - afterDot.length = 0 then []
  else if comp = ['.', '.'] then []
  else '.' :: afterDot.reverse

/-- Node `path.posix.extname`. -/
def extname (p : String) : String := ⟨extOfComponent (lastComponentL p.data)⟩

/-- Node `path.posix.dirname`: strip trailing separators and the last
component, then exactly one separator; `.` when there is no separator left,
with the `/` and `//` root special cases. -/
def dirname (p : String) : String :=
  match (p.data.reverse.dropWhile (fun c => c = '/')).dropWhile (fun c => c ≠ '/') with
  | [] => if p.data.head? = some '/' then "/" else "."
  | _ :: rest =>
    match rest with
    | [] => "/"
    | ['/'] => "//"
    | _ => ⟨rest.reverse⟩

/-- Node `path.posix.basename(path, suffix)`: the last component, with
`suffix` stripped when it is a proper (case-sensitive) suffix of that
component.  Node quirks kept: `basename(p, p) = ""`, a component equal to
the suffix is returned unstripped, and an all-separator path with a
non-matching suffix is returned whole. -/
def basename (p suffix : String) : String :=
  if suffix.data = [] ∨ p.data.length < suffix.data.length then ⟨lastComponentL p.data⟩
  else if suffix = p then ""
  else if lastComponentL p.data = [] then p
  else if suffix.data ≠ lastComponentL p.data ∧ suffix.data.isSuffixOf (lastComponentL p.data) then
    ⟨(lastComponentL p.data).take ((lastComponentL p.data).length - suffix.data.length)⟩
  else ⟨lastComponentL p.data⟩

/-- Split a character list on `/`, keeping empty segments (as Node's
`normalizeString` scanner effectively does before discarding them). -/
def splitSegs : List Char → List (List Char)
  | [] => [[]]
  | c :: cs =>
    if c = '/' then [] :: splitSegs cs
    else
      match splitSegs cs with
      | [] => [[c]]
      | seg :: rest => (c :: seg) :: rest

/-- One step of Node `normalizeString`'s segment resolution: drop an empty
or `.` segment, resolve `..` against the accumulated stack (keeping `..` at
the front only for relative paths, `allowAbove`), push anything else. -/
def stepSeg (allowAbove : Bool) (acc : List (List Char)) (seg : List Char) : List (List Char) :=
  if seg = [] ∨ seg = ['.'] then acc
  else if seg = ['.', '.'] then
    match acc.getLast? with
    | some l =>
      if l = ['.', '.'] then (if allowAbove then acc ++ [seg] else acc)
      else acc.dropLast
    | none => if allowAbove then [['.', '.']] else []
  else acc ++ [seg]

/-- Segment resolution of Node `normalizeString`: fold `stepSeg` over the
segments. -/
def processSegs (allowAbove : Bool) (acc : List (List Char)) :
    List (List Char) → List (List Char)
  | [] => acc
  | seg :: rest => processSegs allowAbove (stepSeg allowAbove acc seg) rest

/-- Interleave `/` between segments. -/
def joinSegs : List (List Char) → List Char
  | [] => []
  | [s] => s
  | s :: t :: rest => s ++ '/' :: joinSegs (t :: rest)

/-- Node `path.posix.normalize` on character lists. -/
def normalizeL (p : List Char) : List Char :=
  if p = [] then ['.']
  else
    let isAbs := p.head? == some '/'
    let trail := p.reverse.head? == some '/'
    let segs := processSegs (!isAbs) [] (splitSegs p)
    if segs = [] then
      (if isAbs then ['/'] else if trail then ['.', '/'] else ['.'])
    else
      (if isAbs then ['/'] else []) ++ joinSegs segs ++ (if trail then ['/'] else [])

/-- Node `path.posix.normalize`. -/
def pathNormalize (p : String) : String := ⟨normalizeL p.data⟩

/-- Node `path.posix.join` with two arguments: concatenate the non-empty
arguments with a separator and normalize; `.` when both are empty. -/
def join2 (a b : String) : String :=
  if a = "" then (if b = "" then "." else pathNormalize b)
  else if b = "" then pathNormalize a
  else pathNormalize ⟨a.data ++ '/' :: b.data⟩

/-! ## Data model of the embedder -/

/-- The abstract metadata object: `{ title, description, keywords }`. -/
structure ImageMetadata where
  title : String
  description : String
  keywords : List String
deriving DecidableEq

/-- A JavaScript `Error` value: its class name and its message.  Every
`new Error(msg)` in the source produces name `"Error"`. -/
structure JsError where
  name : String
  message : String
deriving DecidableEq

/-- The success value returned by `addImageMetadata`. -/
structure EmbedResult where
  status : String
  outputPath : String
  message : String
deriving DecidableEq

/-- The `IFD0` EXIF block prepared by `handleJpegMetadata`. -/
structure ExifIFD0 where
  ImageDescription : String
  XPTitle : String
  XPKeywords : String
deriving DecidableEq

/-- The IPTC block prepared by `handleJpegMetadata`. -/
structure IptcData where
  ObjectName : String
  Caption : String
  Keywords : List String
deriving DecidableEq

/-- The PNG text chunks prepared by `handlePngMetadata`. -/
structure PngTextChunks where
  Title : String
  Description : String
  Keywords : String
deriving DecidableEq

/-- The WebP XMP fields prepared by `handleWebPMetadata`. -/
structure WebpXmpData where
  Title : String
  Description : String
  Keywords : String
deriving DecidableEq

/-- The TIFF tags prepared by `handleTiffMetadata`. -/
structure TiffTags where
  ImageDescription : String
  DocumentName : String
  Keywords : String
deriving DecidableEq

/-- The format-specific metadata block attached to the written file. -/
inductive Payload where
  | jpeg : ExifIFD0 → IptcData → Payload
  | png : PngTextChunks → Payload
  | webp : WebpXmpData → Payload
  | tiff : TiffTags → Payload
deriving DecidableEq

/-- A file operation performed by the component, in order: the `fs.access`
existence check, reading the source image, writing the tagged output. -/
inductive Op where
  | access : String → Op
  | readImage : String → Op
  | writeImage : String → Payload → Op
deriving DecidableEq

/-- The environment: which paths `fs.access` accepts, and whether the sharp
encode/write pipeline fails (`some message`) for a given input/output pair. -/
structure Env where
  fsExists : String → Bool
  encode : String → String → Option String

/-- The `sharp(input).withMetadata(…).toFile(output)` pipeline: read the
source, then either fail with the encoder's error or write the tagged
output. -/
def runSharp (env : Env) (inputPath outputPath : String) (payload : Payload) :
    List Op × Option JsError :=
  match env.encode inputPath outputPath with
  | some msg => ([Op.readImage inputPath], some ⟨"Error", msg⟩)
  | none => ([Op.readImage inputPath, Op.writeImage outputPath payload], none)

/-- The EXIF `IFD0` block built by `handleJpegMetadata`. -/
def jpegExifMetadata (metadata : ImageMetadata) : ExifIFD0 :=
  { ImageDescription := metadata.description
    XPTitle := metadata.title
    XPKeywords := String.intercalate ";" metadata.keywords }

/-- The IPTC block built by `handleJpegMetadata`. -/
def jpegIptcMetadata (metadata : ImageMetadata) : IptcData :=
  { ObjectName := metadata.title
    Caption := metadata.description
    Keywords := metadata.keywords }

/-- The PNG text chunks built by `handlePngMetadata`. -/
def pngTextMetadata (metadata : ImageMetadata) : PngTextChunks :=
  { Title := metadata.title
    Description := metadata.description
    Keywords := String.intercalate ", " metadata.keywords }

/-- The WebP XMP fields built by `handleWebPMetadata`. -/
def webpXmpMetadata (metadata : ImageMetadata) : WebpXmpData :=
  { Title := metadata.title
    Description := metadata.description
    Keywords := String.intercalate ", " metadata.keywords }

/-- The TIFF tags built by `handleTiffMetadata`. -/
def tiffTagsMetadata (metadata : ImageMetadata) : TiffTags :=
  { ImageDescription := metadata.description
    DocumentName := metadata.title
    Keywords := String.intercalate ";" metadata.keywords }

/-- `handleJpegMetadata(inputPath, outputPath, metadata)`. -/
def handleJpegMetadata (env : Env) (inputPath outputPath : String) (metadata : ImageMetadata) :
    List Op × Option JsError :=
  runSharp env inputPath outputPath
    (Payload.jpeg (jpegExifMetadata metadata) (jpegIptcMetadata metadata))

/-- `handlePngMetadata(inputPath, outputPath, metadata)`. -/
def handlePngMetadata (env : Env) (inputPath outputPath : String) (metadata : ImageMetadata) :
    List Op × Option JsError :=
  runSharp env inputPath outputPath (Payload.png (pngTextMetadata metadata))

/-- `handleWebPMetadata(inputPath, outputPath, metadata)`. -/
def handleWebPMetadata (env : Env) (inputPath outputPath : String) (metadata : ImageMetadata) :
    List Op × Option JsError :=
  runSharp env inputPath outputPath (Payload.webp (webpXmpMetadata metadata))

/-- `handleTiffMetadata(inputPath, outputPath, metadata)`. -/
def handleTiffMetadata (env : Env) (inputPath outputPath : String) (metadata : ImageMetadata) :
    List Op × Option JsError :=
  runSharp env inputPath outputPath (Payload.tiff (tiffTagsMetadata metadata))

/-- The supported extensions, as matched by the `switch` (after lowercasing). -/
def supportedExts : List String := [".jpg", ".jpeg", ".png", ".webp", ".tiff"]

/-- The output path computed by `addImageMetadata`:
`path.join(path.dirname(p), path.basename(p, ext) + "_with_metadata" + ext)`
with `ext = path.extname(p).toLowerCase()`. -/
def outputPathOf (imagePath : String) : String :=
  let ext := jsToLower (extname imagePath)
  join2 (dirname imagePath) (basename imagePath ext ++ "_with_metadata" ++ ext)

/-- Message of the validation error thrown on a falsy path or metadata. -/
def validationMessage : String := "Image path and metadata are required"

/-- Message of the rejection of `fs.access` on a missing file. -/
def enoentMessage (p : String) : String :=
  "ENOENT: no such file or directory, access '" ++ p ++ "'"

/-- The body of the `try` block of `addImageMetadata`: validate the inputs
(`null`/`undefined` is `none`, and the empty string is also falsy), check
existence with `fs.access`, compute `ext` and `outputPath`, and dispatch on
the lowercased extension. -/
def addImageMetadataTry (env : Env) :
    Option String → Option ImageMetadata → List Op × Except JsError EmbedResult
  | some imagePath, some metadata =>
    if imagePath = "" then ([], Except.error ⟨"Error", validationMessage⟩)
    else if env.fsExists imagePath then
      let ext := jsToLower (extname imagePath)
      let outputPath := outputPathOf imagePath
      let handled : List Op × Option JsError :=
        if ext = ".jpg" ∨ ext = ".jpeg" then handleJpegMetadata env imagePath outputPath metadata
        else if ext = ".png" then handlePngMetadata env imagePath outputPath metadata
        else if ext = ".webp" then handleWebPMetadata env imagePath outputPath metadata
        else if ext = ".tiff" then handleTiffMetadata env imagePath outputPath metadata
        else ([], some ⟨"Error", "Unsupported image format: " ++ ext⟩)
      (Op.access imagePath :: handled.fst,
       match handled.snd with
       | some e => Except.error e
       | none => Except.ok ⟨"success", outputPath, "Metadata added successfully"⟩)
    else ([Op.access imagePath], Except.error ⟨"Error", enoentMessage imagePath⟩)
  | _, _ => ([], Except.error ⟨"Error", validationMessage⟩)

/-- `addImageMetadata(imagePath, metadata)`: the `try` body wrapped by the
single `catch`, which rethrows every failure as
`new Error("Failed to add metadata: " + error.message)`. -/
def addImageMetadata (env : Env) (imagePath : Option String) (metadata : Option ImageMetadata) :
    List Op × Except JsError EmbedResult :=
  match addImageMetadataTry env imagePath metadata with
  | (ops, Except.ok r) => (ops, Except.ok r)
  | (ops, Except.error e) =>
    (ops, Except.error ⟨"Error", "Failed to add metadata: " ++ e.message⟩)

/-- A path segment that survives normalization unchanged. -/
def plainSeg (seg : List Char) : Prop :=
  seg ≠ [] ∧ '/' ∉ seg ∧ seg ≠ ['.'] ∧ seg ≠ ['.', '.']

instance : DecidablePred plainSeg := fun seg => by
  unfold plainSeg
  infer_instance

/-- A relative directory string already in normal form: every `/`-separated
segment is non-empty and none is `.` or `..`. -/
def plainDir (d : String) : Prop :=
  ∀ seg ∈ splitSegs d.data, plainSeg seg

instance (d : String) : Decidable (plainDir d) := by
  unfold plainDir
  infer_instance

deriving instance DecidableEq for Except

/-- A sample metadata value (the one from the spec's PNG example). -/
def mdSample : ImageMetadata :=
  { title := "Sunset", description := "A beach at dusk", keywords := ["beach", "sunset"] }

/-- Environment where every file exists and sharp succeeds. -/
def envOk : Env := ⟨fun _ => true, fun _ _ => none⟩

/-- Environment where every file exists but sharp fails. -/
def envEncodeFail : Env := ⟨fun _ => true, fun _ _ => some "Input buffer has corrupt header"⟩

/-- Environment where no file exists. -/
def envMissing : Env := ⟨fun _ => false, fun _ _ => none⟩

example : extname "photo.JPG" = ".JPG" := by decide
example : extname "a/b/.bashrc" = "" := by decide
example : extname "a.b/c" = "" := by decide
example : extname "x/y.tar.gz/" = ".gz" := by decide
example : dirname "a//b.jpg" = "a/" := by decide
example : dirname "/a.jpg" = "/" := by decide
example : basename "photo.JPG" ".jpg" = "photo.JPG" := by decide
example : basename "images/photo.jpg" ".jpg" = "photo" := by decide
example : join2 "." "a_with_metadata.jpg" = "a_with_metadata.jpg" := by decide
example : join2 "a//b" "c.jpg" = "a/b/c.jpg" := by decide
example : outputPathOf "images/photo.jpg" = "images/photo_with_metadata.jpg" := by decide
example : outputPathOf "photo.JPG" = "photo.JPG_with_metadata.jpg" := by decide
example :
    (addImageMetadata envOk (some "images/photo.jpg") (some mdSample)).snd
      = Except.ok ⟨"success", "images/photo_with_metadata.jpg", "Metadata added successfully"⟩ := by
  decide

/-! ## Small helper lemmas -/

/-- Two strings with equal character data are equal. -/
theorem stringDataInj {a b : String} (h : a.data = b.data) : a = b := by
  cases a; cases b; exact congrArg String.mk h

/-- `head?` looks only at a non-empty left part of an append. -/
theorem head?_append_left {l l' : List Char} (h : l ≠ []) : (l ++ l').head? = l.head? := by
  cases l with
  | nil => exact absurd rfl h
  | cons a t => rfl

/-- Left cancellation for string append. -/
theorem string_append_left_cancel {a b c : String} (h : a ++ b = a ++ c) : b = c := by
  apply stringDataInj
  have hd := congrArg String.data h
  simp only [String.data_append] at hd
  exact List.append_cancel_left hd

/-! ## Claim theorems (part 1) -/

/-- Claim C1 (counterexample): the code raises no distinct error classes — a
validation failure and an embedding failure are both plain JavaScript errors
of the same class `"Error"`, which is neither `ValidationError` nor
`EmbeddingError`, so the error class cannot distinguish them. -/
theorem error_classes_counterexample :
    (addImageMetadata envEncodeFail (some "a.jpg") none).snd
      = Except.error ⟨"Error", "Failed to add metadata: Image path and metadata are required"⟩
    ∧ (addImageMetadata envEncodeFail (some "a.jpg") (some mdSample)).snd
      = Except.error ⟨"Error", "Failed to add metadata: Input buffer has corrupt header"⟩
    ∧ ("Error" : String) ≠ "ValidationError"
    ∧ ("Error" : String) ≠ "EmbeddingError" := by decide

/-- Claim C1 (amended): all four failure kinds are raised as plain `Error`
values (class name `"Error"`); they are distinguishable only by message —
validation `"Image path and metadata are required"`, missing file the ENOENT
message, unsupported extension `"Unsupported image format: <ext>"`, and a
handler failure the underlying encoder message — each wrapped with the prefix
`"Failed to add metadata: "`. -/
theorem failure_kinds_by_message (env : Env) (p : String) (md : ImageMetadata) :
    ((∀ ip : Option String, (addImageMetadata env ip none).snd
        = Except.error ⟨"Error", "Failed to add metadata: " ++ validationMessage⟩)
      ∧ (addImageMetadata env none (some md)).snd
        = Except.error ⟨"Error", "Failed to add metadata: " ++ validationMessage⟩
      ∧ (addImageMetadata env (some "") (some md)).snd
        = Except.error ⟨"Error", "Failed to add metadata: " ++ validationMessage⟩)
    ∧ (p ≠ "" → env.fsExists p = false →
        (addImageMetadata env (some p) (some md)).snd
          = Except.error ⟨"Error", "Failed to add metadata: " ++ enoentMessage p⟩)
    ∧ (p ≠ "" → env.fsExists p = true → jsToLower (extname p) ∉ supportedExts →
        (addImageMetadata env (some p) (some md)).snd
          = Except.error ⟨"Error",
              "Failed to add metadata: " ++ ("Unsupported image format: " ++ jsToLower (extname p))⟩)
    ∧ (∀ msg, p ≠ "" → env.fsExists p = true → jsToLower (extname p) ∈ supportedExts →
        env.encode p (outputPathOf p) = some msg →
        (addImageMetadata env (some p) (some md)).snd
          = Except.error ⟨"Error", "Failed to add metadata: " ++ msg⟩) := by
  refine ⟨⟨fun ip => ?_, ?_, ?_⟩, fun hp hfs => ?_, fun hp hfs hns => ?_,
    fun msg hp hfs hmem henc => ?_⟩
  · cases ip <;> rfl
  · rfl
  · rfl
  · simp [addImageMetadata, addImageMetadataTry, hp, hfs]
  · simp only [supportedExts, List.mem_cons, List.not_mem_nil, or_false] at hns
    push_neg at hns
    obtain ⟨h1, h2, h3, h4, h5⟩ := hns
    simp [addImageMetadata, addImageMetadataTry, hp, hfs, h1, h2, h3, h4, h5]
  · simp only [supportedExts, List.mem_cons, List.not_mem_nil, or_false] at hmem
    rcases hmem with h | h | h | h | h <;>
      simp [addImageMetadata, addImageMetadataTry, handleJpegMetadata, handlePngMetadata,
        handleWebPMetadata, handleTiffMetadata, runSharp, hp, hfs, h, henc]

/-- Claim C1 (witness for the amended theorem): the missing-file case at a
concrete input. -/
theorem failure_kinds_by_message_witness :
    (addImageMetadata envMissing (some "ghost.jpg") (some mdSample)).snd
      = Except.error ⟨"Error", "Failed to add metadata: " ++ enoentMessage "ghost.jpg"⟩ :=
  (failure_kinds_by_message envMissing "ghost.jpg" mdSample).2.1 (by decide) rfl

/-- Claim C2 (counterexample): for the accepted source `"photo.JPG"` the call
succeeds, but the output path `"photo.JPG_with_metadata.jpg"` does not
preserve the original extension `".JPG"` (it carries `".jpg"`), and the
basename is not the extension-stripped stem `"photo"`. -/
theorem outputPath_preserves_extension_counterexample :
    (addImageMetadata envOk (some "photo.JPG") (some mdSample)).snd
      = Except.ok ⟨"success", "photo.JPG_with_metadata.jpg", "Metadata added successfully"⟩
    ∧ extname "photo.JPG" = ".JPG"
    ∧ extname "photo.JPG_with_metadata.jpg" = ".jpg"
    ∧ (".jpg" : String) ≠ ".JPG"
    ∧ basename "photo.JPG" (jsToLower (extname "photo.JPG")) ≠ "photo" := by decide

/-- Claim C3 (counterexample): on an existing file with the unsupported
extension `.bmp` the failure is the unsupported-format failure, but file I/O
has already been attempted before it: the trace contains the `fs.access`
operation on the source, so the failure does not precede all file I/O. -/
theorem unsupported_before_io_counterexample :
    (addImageMetadata envOk (some "img.bmp") (some mdSample)).fst = [Op.access "img.bmp"]
    ∧ (addImageMetadata envOk (some "img.bmp") (some mdSample)).snd
        = Except.error ⟨"Error", "Failed to add metadata: Unsupported image format: .bmp"⟩
    ∧ [Op.access "img.bmp"] ≠ ([] : List Op) := by decide

/-- Claim C3 (amended): for every existing source whose lowercased extension
is not in the supported set, the call fails with the unsupported-format
failure and performs no read or write of image data — the only file operation
in the trace is the `fs.access` existence check, which precedes the extension
check. -/
theorem unsupported_format_no_write (env : Env) (p : String) (md : ImageMetadata)
    (hp : p ≠ "") (hfs : env.fsExists p = true)
    (hns : jsToLower (extname p) ∉ supportedExts) :
    addImageMetadata env (some p) (some md)
      = ([Op.access p],
         Except.error ⟨"Error",
           "Failed to add metadata: " ++ ("Unsupported image format: " ++ jsToLower (extname p))⟩) := by
  simp only [supportedExts, List.mem_cons, List.not_mem_nil, or_false] at hns
  push_neg at hns
  obtain ⟨h1, h2, h3, h4, h5⟩ := hns
  simp [addImageMetadata, addImageMetadataTry, hp, hfs, h1, h2, h3, h4, h5]

/-- Claim C3 (witness for the amended theorem). -/
theorem unsupported_format_no_write_witness :
    addImageMetadata envOk (some "img.bmp") (some mdSample)
      = ([Op.access "img.bmp"],
         Except.error ⟨"Error",
           "Failed to add metadata: "
             ++ ("Unsupported image format: " ++ jsToLower (extname "img.bmp"))⟩) :=
  unsupported_format_no_write envOk "img.bmp" mdSample (by decide) rfl (by decide)

/-- Claim C4: the JPEG and TIFF handlers join the keyword list into a single
string with separator `";"` (EXIF `XPKeywords` and TIFF `Keywords`), while
the PNG and WebP handlers join it with `", "` (the PNG `Keywords` text chunk
and the XMP `Keywords` field); this asymmetry is the joining rule applied to
every keyword list, and on the empty and singleton lists the four joins
degenerate to `""` and to the single keyword respectively. -/
theorem keyword_join_asymmetry :
    (∀ metadata : ImageMetadata,
      (jpegExifMetadata metadata).XPKeywords = String.intercalate ";" metadata.keywords
      ∧ (tiffTagsMetadata metadata).Keywords = String.intercalate ";" metadata.keywords
      ∧ (pngTextMetadata metadata).Keywords = String.intercalate ", " metadata.keywords
      ∧ (webpXmpMetadata metadata).Keywords = String.intercalate ", " metadata.keywords)
    ∧ (∀ t d a b : String,
      (jpegExifMetadata ⟨t, d, [a, b]⟩).XPKeywords = a ++ ";" ++ b
      ∧ (tiffTagsMetadata ⟨t, d, [a, b]⟩).Keywords = a ++ ";" ++ b
      ∧ (pngTextMetadata ⟨t, d, [a, b]⟩).Keywords = a ++ ", " ++ b
      ∧ (webpXmpMetadata ⟨t, d, [a, b]⟩).Keywords = a ++ ", " ++ b)
    ∧ (∀ t d : String,
      (jpegExifMetadata ⟨t, d, []⟩).XPKeywords = ""
      ∧ (tiffTagsMetadata ⟨t, d, []⟩).Keywords = ""
      ∧ (pngTextMetadata ⟨t, d, []⟩).Keywords = ""
      ∧ (webpXmpMetadata ⟨t, d, []⟩).Keywords = "")
    ∧ (∀ t d k : String,
      (jpegExifMetadata ⟨t, d, [k]⟩).XPKeywords = k
      ∧ (tiffTagsMetadata ⟨t, d, [k]⟩).Keywords = k
      ∧ (pngTextMetadata ⟨t, d, [k]⟩).Keywords = k
      ∧ (webpXmpMetadata ⟨t, d, [k]⟩).Keywords = k) :=
  ⟨fun _ => ⟨rfl, rfl, rfl, rfl⟩,
   fun _ _ _ _ => ⟨rfl, rfl, rfl, rfl⟩,
   fun _ _ => ⟨rfl, rfl, rfl, rfl⟩,
   fun _ _ _ => ⟨rfl, rfl, rfl, rfl⟩⟩

/-- Claim C5: for every metadata value, the JPEG handler routes the title to
both EXIF `XPTitle` and IPTC `ObjectName`, the description to both EXIF
`ImageDescription` and IPTC `Caption`, and the keywords to IPTC `Keywords`
as a list and to EXIF `XPKeywords` joined with `";"`; on a successful encode
exactly this block is written to the output file, so those slots hold the
original values. -/
theorem jpeg_slot_routing (metadata : ImageMetadata) :
    (jpegExifMetadata metadata).XPTitle = metadata.title
    ∧ (jpegIptcMetadata metadata).ObjectName = metadata.title
    ∧ (jpegExifMetadata metadata).ImageDescription = metadata.description
    ∧ (jpegIptcMetadata metadata).Caption = metadata.description
    ∧ (jpegIptcMetadata metadata).Keywords = metadata.keywords
    ∧ (jpegExifMetadata metadata).XPKeywords = String.intercalate ";" metadata.keywords
    ∧ (∀ env inputPath outputPath, env.encode inputPath outputPath = none →
        handleJpegMetadata env inputPath outputPath metadata
          = ([Op.readImage inputPath,
              Op.writeImage outputPath
                (Payload.jpeg (jpegExifMetadata metadata) (jpegIptcMetadata metadata))], none)) :=
  ⟨rfl, rfl, rfl, rfl, rfl, rfl, fun env i o h => by
    simp [handleJpegMetadata, runSharp, h]⟩

/-- Claim C5 (witness): the routing at a concrete successful encode. -/
theorem jpeg_slot_routing_witness :
    handleJpegMetadata envOk "a.jpg" "a_with_metadata.jpg" mdSample
      = ([Op.readImage "a.jpg",
          Op.writeImage "a_with_metadata.jpg"
            (Payload.jpeg (jpegExifMetadata mdSample) (jpegIptcMetadata mdSample))], none) :=
  (jpeg_slot_routing mdSample).2.2.2.2.2.2 envOk "a.jpg" "a_with_metadata.jpg" rfl

/-- Claim C6: for metadata `{title: "Sunset", description: "A beach at dusk",
keywords: ["beach", "sunset"]}` and a `.png` source, the PNG handler produces
exactly the text chunks `Title=Sunset`, `Description=A beach at dusk`,
`Keywords=beach, sunset`, and that block is what gets written. -/
theorem png_text_chunks_example :
    pngTextMetadata mdSample
      = { Title := "Sunset", Description := "A beach at dusk", Keywords := "beach, sunset" }
    ∧ (addImageMetadata envOk (some "img.png") (some mdSample)).fst
      = [Op.access "img.png", Op.readImage "img.png",
         Op.writeImage "img_with_metadata.png"
           (Payload.png ⟨"Sunset", "A beach at dusk", "beach, sunset"⟩)] := by decide

/-- Claim C7: a null/absent metadata argument fails with the validation
failure for every path and hence every file format, before the existence
check and the format dispatch — the operation trace is empty. -/
theorem null_metadata_validation (env : Env) (imagePath : Option String) :
    addImageMetadata env imagePath none
      = ([], Except.error ⟨"Error", "Failed to add metadata: " ++ validationMessage⟩) := by
  cases imagePath <;> rfl

/-- Claim C9: every error raised by `addImageMetadata`, of every kind, is a
plain error whose message is the fixed prefix `"Failed to add metadata: "`
followed by the underlying error's message, because the single catch block
rewraps all failures uniformly. -/
theorem error_message_wrapped (env : Env) (imagePath : Option String)
    (metadata : Option ImageMetadata) (e : JsError)
    (h : (addImageMetadata env imagePath metadata).snd = Except.error e) :
    e.name = "Error" ∧ ∃ m : String, e.message = "Failed to add metadata: " ++ m := by
  unfold addImageMetadata at h
  rcases htry : addImageMetadataTry env imagePath metadata with ⟨ops, r⟩
  rw [htry] at h
  cases r with
  | ok v => simp at h
  | error e0 =>
    simp only at h
    cases h
    exact ⟨rfl, e0.message, rfl⟩

/-- Claim C9 (witness): the wrapped message of a concrete failure. -/
theorem error_message_wrapped_witness :
    (⟨"Error", "Failed to add metadata: Image path and metadata are required"⟩ : JsError).name
        = "Error"
    ∧ ∃ m : String,
        (⟨"Error", "Failed to add metadata: Image path and metadata are required"⟩
            : JsError).message
          = "Failed to add metadata: " ++ m :=
  error_message_wrapped envOk (some "a.jpg") none
    ⟨"Error", "Failed to add metadata: Image path and metadata are required"⟩ (by decide)

/-- Claim C10: the checks run in a fixed order — validation, then the
`fs.access` existence check, then extension dispatch — so on a nonexistent
file with an unsupported extension the raised failure is the file-not-found
failure, never the unsupported-format failure. -/
theorem missing_file_precedes_format (env : Env) (p : String) (md : ImageMetadata)
    (hp : p ≠ "") (hfs : env.fsExists p = false) :
    addImageMetadata env (some p) (some md)
      = ([Op.access p],
         Except.error ⟨"Error", "Failed to add metadata: " ++ enoentMessage p⟩)
    ∧ "Failed to add metadata: " ++ enoentMessage p
        ≠ "Failed to add metadata: " ++ ("Unsupported image format: " ++ jsToLower (extname p)) := by
  constructor
  · simp [addImageMetadata, addImageMetadataTry, hp, hfs]
  · intro heq
    have h2 := string_append_left_cancel heq
    have hl : (enoentMessage p).data.head? = some 'E' := by
      simp only [enoentMessage, String.data_append]
      rw [head?_append_left (by
            intro hnil
            exact absurd (List.append_eq_nil.mp hnil).1 (by decide)),
        head?_append_left (by decide)]
      decide
    have hr : (("Unsupported image format: " ++ jsToLower (extname p)) : String).data.head?
        = some 'U' := by
      simp only [String.data_append]
      rw [head?_append_left (by decide)]
      decide
    rw [h2, hr] at hl
    exact absurd hl (by decide)

/-- Claim C10 (witness): a nonexistent `.bmp` file yields the not-found
failure, not the unsupported-format failure. -/
theorem missing_file_precedes_format_witness :
    (addImageMetadata envMissing (some "ghost.bmp") (some mdSample)
      = ([Op.access "ghost.bmp"],
         Except.error ⟨"Error", "Failed to add metadata: " ++ enoentMessage "ghost.bmp"⟩))
    ∧ "Failed to add metadata: " ++ enoentMessage "ghost.bmp"
        ≠ "Failed to add metadata: "
            ++ ("Unsupported image format: " ++ jsToLower (extname "ghost.bmp")) :=
  missing_file_precedes_format envMissing "ghost.bmp" mdSample (by decide) rfl

/-! ## Path infrastructure lemmas -/

/-- The last component never contains a separator. -/
theorem lastComponentL_no_slash (p : List Char) : '/' ∉ lastComponentL p := by
  intro hmem
  rw [lastComponentL, List.mem_reverse] at hmem
  have := List.mem_takeWhile_imp hmem
  simp at this

/-- The last component of `t ++ s` is `s` when `s` is a non-empty
separator-free block and `t` is empty or ends with a separator. -/
theorem lastComponentL_concat (t s : List Char) (hs1 : s ≠ []) (hs2 : '/' ∉ s)
    (ht : t = [] ∨ ∃ t0, t = t0 ++ ['/']) :
    lastComponentL (t ++ s) = s := by
  obtain ⟨c, r, hcr⟩ : ∃ c r, s.reverse = c :: r := by
    cases hrev : s.reverse with
    | nil => exact absurd (List.reverse_eq_nil_iff.mp hrev) hs1
    | cons c r => exact ⟨c, r, rfl⟩
  have hcs : c ∈ s := by
    rw [← List.mem_reverse, hcr]; exact List.mem_cons_self c r
  have hc : ¬ c = '/' := fun h => hs2 (h ▸ hcs)
  have hall : ∀ x ∈ s.reverse, (fun ch => decide (ch ≠ '/')) x := by
    intro x hx
    simp only [List.mem_reverse] at hx
    simp only [decide_eq_true_eq]
    exact fun h => hs2 (h ▸ hx)
  have htake : s.reverse.takeWhile (fun ch => decide (ch ≠ '/')) = s.reverse := by
    have h2 := @List.takeWhile_append_of_pos Char (fun ch => decide (ch ≠ '/'))
      s.reverse [] hall
    simpa using h2
  rcases ht with rfl | ⟨t0, rfl⟩
  · rw [List.nil_append, lastComponentL, hcr, List.dropWhile_cons_of_neg (by simp [hc]), ← hcr,
      htake, List.reverse_reverse]
  · rw [lastComponentL]
    have hshape : ((t0 ++ ['/']) ++ s).reverse = c :: (r ++ '/' :: t0.reverse) := by
      simp [List.reverse_append, hcr]
    rw [hshape, List.dropWhile_cons_of_neg (by simp [hc]), ← List.cons_append, ← hcr,
      List.takeWhile_append_of_pos hall, List.takeWhile_cons_of_neg (by simp), List.append_nil,
      List.reverse_reverse]

/-- `splitSegs` always yields at least one segment. -/
theorem splitSegs_ne_nil (cs : List Char) : splitSegs cs ≠ [] := by
  induction cs with
  | nil => simp [splitSegs]
  | cons c t ih =>
    rw [splitSegs]
    by_cases h : c = '/'
    · simp [h]
    · rw [if_neg h]
      cases hsp : splitSegs t with
      | nil => simp
      | cons seg rest => simp

/-- A separator-free list is a single segment. -/
theorem splitSegs_no_slash (s : List Char) (h : '/' ∉ s) : splitSegs s = [s] := by
  induction s with
  | nil => rfl
  | cons c t ih =>
    have hc : ¬ c = '/' := fun hx => h (hx ▸ List.mem_cons_self c t)
    have ht : '/' ∉ t := fun hm => h (List.mem_cons_of_mem c hm)
    rw [splitSegs, if_neg hc, ih ht]

/-- Splitting after appending a separator and a separator-free block adds
exactly one final segment. -/
theorem splitSegs_append (a s : List Char) (h : '/' ∉ s) :
    splitSegs (a ++ '/' :: s) = splitSegs a ++ [s] := by
  induction a with
  | nil => simp [splitSegs, splitSegs_no_slash s h]
  | cons c t ih =>
    by_cases hc : c = '/'
    · rw [List.cons_append, splitSegs, if_pos hc, ih, splitSegs, if_pos hc, List.cons_append]
    · rw [List.cons_append, splitSegs, if_neg hc, ih, splitSegs, if_neg hc]
      cases hsp : splitSegs t with
      | nil => exact absurd hsp (splitSegs_ne_nil t)
      | cons seg rest => simp

/-- `processSegs` distributes over list append (it is a left fold). -/
theorem processSegs_append (ab : Bool) (acc xs ys : List (List Char)) :
    processSegs ab acc (xs ++ ys) = processSegs ab (processSegs ab acc xs) ys := by
  induction xs generalizing acc with
  | nil => rfl
  | cons seg rest ih => rw [List.cons_append, processSegs, processSegs, ih]

/-- A plain segment is just pushed by `stepSeg`. -/
theorem stepSeg_plain (ab : Bool) (acc : List (List Char)) (seg : List Char)
    (h : plainSeg seg) : stepSeg ab acc seg = acc ++ [seg] := by
  obtain ⟨h1, _, h3, h4⟩ := h
  rw [stepSeg, if_neg (by simp [h1, h3]), if_neg h4]

/-- A list of plain segments passes through `processSegs` unchanged. -/
theorem processSegs_plain (ab : Bool) (acc L : List (List Char))
    (h : ∀ seg ∈ L, plainSeg seg) : processSegs ab acc L = acc ++ L := by
  induction L generalizing acc with
  | nil => simp [processSegs]
  | cons seg rest ih =>
    rw [processSegs, stepSeg_plain ab acc seg (h seg (List.mem_cons_self seg rest)),
      ih _ (fun x hx => h x (List.mem_cons_of_mem seg hx))]
    simp

/-- A final plain segment survives `processSegs` as the last segment. -/
theorem processSegs_concat_plain (ab : Bool) (acc xs : List (List Char)) (s : List Char)
    (hs : plainSeg s) : processSegs ab acc (xs ++ [s]) = processSegs ab acc xs ++ [s] := by
  rw [processSegs_append, processSegs, stepSeg_plain _ _ _ hs]
  rfl

/-- Joining after appending a final segment. -/
theorem joinSegs_concat (S : List (List Char)) (s : List Char) (hS : S ≠ []) :
    joinSegs (S ++ [s]) = joinSegs S ++ '/' :: s := by
  induction S with
  | nil => exact absurd rfl hS
  | cons x rest ih =>
    cases rest with
    | nil => rfl
    | cons y r =>
      simp only [List.cons_append]
      rw [joinSegs, show y :: (r ++ [s]) = (y :: r) ++ [s] from rfl, ih (by simp), joinSegs]
      simp [List.append_assoc]

/-- `joinSegs` is a left inverse of `splitSegs`. -/
theorem joinSegs_splitSegs (l : List Char) : joinSegs (splitSegs l) = l := by
  induction l with
  | nil => rfl
  | cons c t ih =>
    by_cases hc : c = '/'
    · subst hc
      rw [splitSegs, if_pos rfl]
      cases hsp : splitSegs t with
      | nil => exact absurd hsp (splitSegs_ne_nil t)
      | cons seg rest =>
        rw [joinSegs, ← hsp, ih, List.nil_append]
    · rw [splitSegs, if_neg hc]
      cases hsp : splitSegs t with
      | nil => exact absurd hsp (splitSegs_ne_nil t)
      | cons seg rest =>
        cases rest with
        | nil =>
          have hj := ih
          rw [hsp, joinSegs] at hj
          rw [joinSegs, hj]
        | cons y r =>
          have hj := ih
          rw [hsp, joinSegs] at hj
          rw [joinSegs, ← hj]
          simp

/-- Normalizing `a ++ "/" ++ s` for a plain final segment `s` yields a path
ending in `s`, with the prefix empty or ending in a separator. -/
theorem normalizeL_concat (a s : List Char) (hs : plainSeg s) :
    ∃ t, normalizeL (a ++ '/' :: s) = t ++ s ∧ (t = [] ∨ ∃ t0, t = t0 ++ ['/']) := by
  obtain ⟨hs1, hs2, hs3, hs4⟩ := hs
  obtain ⟨c, r, hcr⟩ : ∃ c r, s.reverse = c :: r := by
    cases hrev : s.reverse with
    | nil => exact absurd (List.reverse_eq_nil_iff.mp hrev) hs1
    | cons c r => exact ⟨c, r, rfl⟩
  have hcs : c ∈ s := by rw [← List.mem_reverse, hcr]; exact List.mem_cons_self c r
  have hc : ¬ c = '/' := fun h => hs2 (h ▸ hcs)
  have htrail : ((a ++ '/' :: s).reverse.head? == some '/') = false := by
    have hh : (a ++ '/' :: s).reverse.head? = some c := by
      rw [List.reverse_append, List.reverse_cons, List.append_assoc, hcr]
      rfl
    rw [hh]
    simp [hc]
  have hne : a ++ '/' :: s ≠ [] := by simp
  have hproc : processSegs (!((a ++ '/' :: s).head? == some '/')) [] (splitSegs (a ++ '/' :: s))
      = processSegs (!((a ++ '/' :: s).head? == some '/')) [] (splitSegs a) ++ [s] := by
    rw [splitSegs_append a s hs2,
      processSegs_concat_plain _ [] (splitSegs a) s ⟨hs1, hs2, hs3, hs4⟩]
  rw [normalizeL, if_neg hne]
  simp only [hproc, htrail, Bool.false_eq_true, if_false]
  rw [if_neg (by simp :
    ¬ (processSegs (!((a ++ '/' :: s).head? == some '/')) [] (splitSegs a) ++ [s] = []))]
  cases hS : processSegs (!((a ++ '/' :: s).head? == some '/')) [] (splitSegs a) with
  | nil =>
    refine ⟨if ((a ++ '/' :: s).head? == some '/') then ['/'] else [], by simp [joinSegs], ?_⟩
    cases hb : ((a ++ '/' :: s).head? == some '/')
    · exact Or.inl (by simp)
    · exact Or.inr ⟨[], by simp⟩
  | cons x xs =>
    refine ⟨(if ((a ++ '/' :: s).head? == some '/') then ['/'] else [])
        ++ joinSegs (x :: xs) ++ ['/'], ?_, Or.inr ⟨_, rfl⟩⟩
    rw [joinSegs_concat (x :: xs) s (by simp)]
    simp [List.append_assoc]

/-- Normalizing leaves `d ++ "/" ++ s` unchanged when every segment of `d`
and the final segment `s` are plain. -/
theorem normalizeL_plain_concat (dl s : List Char)
    (hd : ∀ seg ∈ splitSegs dl, plainSeg seg) (hs : plainSeg s) :
    normalizeL (dl ++ '/' :: s) = dl ++ '/' :: s := by
  obtain ⟨hs1, hs2, hs3, hs4⟩ := hs
  obtain ⟨s0, rest, hsp⟩ : ∃ s0 rest, splitSegs dl = s0 :: rest := by
    cases h : splitSegs dl with
    | nil => exact absurd h (splitSegs_ne_nil dl)
    | cons a b => exact ⟨a, b, rfl⟩
  have hs0 : plainSeg s0 := hd s0 (by rw [hsp]; exact List.mem_cons_self _ _)
  obtain ⟨c0, cr, hc0⟩ : ∃ c0 cr, s0 = c0 :: cr := by
    cases h : s0 with
    | nil => exact absurd h hs0.1
    | cons a b => exact ⟨a, b, rfl⟩
  have hc0s : ¬ c0 = '/' := fun h =>
    hs0.2.1 (by rw [hc0, h]; exact List.mem_cons_self _ _)
  have hdlhead : dl.head? = some c0 := by
    have hj := joinSegs_splitSegs dl
    rw [hsp] at hj
    cases rest with
    | nil => rw [joinSegs] at hj; rw [← hj, hc0]; rfl
    | cons y r => rw [joinSegs] at hj; rw [← hj, hc0]; rfl
  have hdlne : dl ≠ [] := by
    intro h
    rw [h] at hdlhead
    simp at hdlhead
  have habs : ((dl ++ '/' :: s).head? == some '/') = false := by
    rw [head?_append_left hdlne, hdlhead]
    simp [hc0s]
  obtain ⟨c, r, hcr⟩ : ∃ c r, s.reverse = c :: r := by
    cases hrev : s.reverse with
    | nil => exact absurd (List.reverse_eq_nil_iff.mp hrev) hs1
    | cons c r => exact ⟨c, r, rfl⟩
  have hcs : c ∈ s := by rw [← List.mem_reverse, hcr]; exact List.mem_cons_self c r
  have hc : ¬ c = '/' := fun h => hs2 (h ▸ hcs)
  have htrail : ((dl ++ '/' :: s).reverse.head? == some '/') = false := by
    have hh : (dl ++ '/' :: s).reverse.head? = some c := by
      rw [List.reverse_append, List.reverse_cons, List.append_assoc, hcr]
      rfl
    rw [hh]
    simp [hc]
  have hne : dl ++ '/' :: s ≠ [] := by simp
  have hproc : ∀ ab : Bool, processSegs ab [] (splitSegs (dl ++ '/' :: s))
      = splitSegs dl ++ [s] := by
    intro ab
    rw [splitSegs_append dl s hs2,
      processSegs_concat_plain _ [] (splitSegs dl) s ⟨hs1, hs2, hs3, hs4⟩,
      processSegs_plain _ [] (splitSegs dl) hd, List.nil_append]
  rw [normalizeL, if_neg hne]
  simp only [hproc, htrail, habs, Bool.false_eq_true, if_false]
  rw [if_neg (by simp : ¬ (splitSegs dl ++ [s] = []))]
  rw [joinSegs_concat (splitSegs dl) s (splitSegs_ne_nil dl), joinSegs_splitSegs dl]
  simp

/-- `dirname` never returns the empty string. -/
theorem dirname_ne_empty (p : String) : dirname p ≠ "" := by
  unfold dirname
  split
  · split
    · intro h; simp at h  -- "/" = ""
    · intro h; simp at h  -- "." = ""
  · split
    · intro h; simp at h
    · intro h; simp at h
    next =>
      intro h
      rename_i r0 hn1 hn2
      exact hn1 (List.reverse_eq_nil_iff.mp (congrArg String.data h))

/-- `dirname` of `d ++ "/" ++ comp` is `d` for a separator-free non-empty
component and a directory that is neither empty nor the root. -/
theorem dirname_concat (d comp : List Char) (hcomp1 : comp ≠ []) (hcomp2 : '/' ∉ comp)
    (hd1 : d ≠ []) (hd2 : d ≠ ['/']) :
    dirname ⟨d ++ '/' :: comp⟩ = ⟨d⟩ := by
  obtain ⟨c, r, hcr⟩ : ∃ c r, comp.reverse = c :: r := by
    cases hrev : comp.reverse with
    | nil => exact absurd (List.reverse_eq_nil_iff.mp hrev) hcomp1
    | cons c r => exact ⟨c, r, rfl⟩
  have hcs : c ∈ comp := by rw [← List.mem_reverse, hcr]; exact List.mem_cons_self c r
  have hc : ¬ c = '/' := fun h => hcomp2 (h ▸ hcs)
  have hall : ∀ x ∈ comp.reverse, (fun ch => decide (ch ≠ '/')) x := by
    intro x hx
    simp only [List.mem_reverse] at hx
    simp only [decide_eq_true_eq]
    exact fun h => hcomp2 (h ▸ hx)
  have hscrut : (((⟨d ++ '/' :: comp⟩ : String).data.reverse.dropWhile
        (fun ch => ch = '/')).dropWhile (fun ch => ch ≠ '/')) = '/' :: d.reverse := by
    show (((d ++ '/' :: comp).reverse.dropWhile (fun ch => ch = '/')).dropWhile
      (fun ch => ch ≠ '/')) = '/' :: d.reverse
    have hrev : (d ++ '/' :: comp).reverse = c :: (r ++ '/' :: d.reverse) := by
      rw [List.reverse_append, List.reverse_cons, List.append_assoc, hcr]
      rfl
    rw [hrev, List.dropWhile_cons_of_neg (by simp [hc]),
      show c :: (r ++ '/' :: d.reverse) = (c :: r) ++ '/' :: d.reverse from rfl, ← hcr,
      List.dropWhile_append_of_pos hall, List.dropWhile_cons_of_neg (by simp)]
  unfold dirname
  rw [hscrut]
  cases hdr : d.reverse with
  | nil => exact absurd (List.reverse_eq_nil_iff.mp hdr) hd1
  | cons x xs =>
    split
    · next heq => exact absurd heq (by simp)
    · next heq =>
      obtain ⟨h1, hrest⟩ := List.cons.inj heq
      subst hrest
      split
      · next h2 => exact absurd h2 (by simp)
      · next h2 =>
        exfalso
        apply hd2
        have hdd := congrArg List.reverse hdr
        rw [List.reverse_reverse] at hdd
        rw [hdd, h2]
        rfl
      · next =>
        refine stringDataInj ?_
        show (x :: xs).reverse = d
        have hdd := congrArg List.reverse hdr
        rw [List.reverse_reverse] at hdd
        rw [← hdd]

/-- `basename` never yields a separator (outside the all-separator quirk). -/
theorem basename_no_slash (p suffix : String) (hlc : lastComponentL p.data ≠ []) :
    '/' ∉ (basename p suffix).data := by
  rw [basename]
  by_cases hA : suffix.data = [] ∨ p.data.length < suffix.data.length
  · rw [if_pos hA]; exact lastComponentL_no_slash p.data
  · rw [if_neg hA]
    by_cases hB : suffix = p
    · rw [if_pos hB]; intro h; simp at h
    · rw [if_neg hB, if_neg hlc]
      by_cases hC : suffix.data ≠ lastComponentL p.data ∧
          suffix.data.isSuffixOf (lastComponentL p.data) = true
      · rw [if_pos hC]
        intro hm
        exact lastComponentL_no_slash p.data (List.take_subset _ _ hm)
      · rw [if_neg hC]; exact lastComponentL_no_slash p.data

/-- Evaluation of `basename` when the suffix properly ends the last
component. -/
theorem basename_strip (p suffix : String) (stem0 : List Char)
    (h1 : suffix.data ≠ []) (h2 : ¬ p.data.length < suffix.data.length)
    (h3 : suffix ≠ p)
    (h4 : lastComponentL p.data = stem0 ++ suffix.data)
    (h5 : stem0 ≠ []) :
    basename p suffix = ⟨stem0⟩ := by
  have hlc : lastComponentL p.data ≠ [] := by
    rw [h4]
    intro h
    exact h1 (List.append_eq_nil.mp h).2
  have hneq : suffix.data ≠ lastComponentL p.data := by
    rw [h4]
    intro h
    have hlen := congrArg List.length h
    rw [List.length_append] at hlen
    have : stem0.length = 0 := by omega
    exact h5 (List.length_eq_zero.mp this)
  have hsuf : suffix.data.isSuffixOf (lastComponentL p.data) = true := by
    rw [h4, List.isSuffixOf_iff_suffix]
    exact List.suffix_append stem0 suffix.data
  rw [basename, if_neg (by push_neg; exact ⟨h1, Nat.le_of_not_lt h2⟩), if_neg h3, if_neg hlc,
    if_pos ⟨hneq, hsuf⟩]
  refine congrArg String.mk ?_
  rw [h4, List.length_append, Nat.add_sub_cancel]
  exact List.take_left stem0 suffix.data

/-- The extension of a component `stem ++ "." ++ tail` with a dot-free
non-empty `tail` and non-empty `stem` is `"." ++ tail`. -/
theorem extOfComponent_concat (stem tail : List Char) (hstem : stem ≠ [])
    (htail1 : tail ≠ []) (htail2 : '.' ∉ tail) :
    extOfComponent (stem ++ '.' :: tail) = '.' :: tail := by
  have hall : ∀ x ∈ tail.reverse, (fun ch => decide (ch ≠ '.')) x := by
    intro x hx
    simp only [List.mem_reverse] at hx
    simp only [decide_eq_true_eq]
    exact fun h => htail2 (h ▸ hx)
  have hrev : (stem ++ '.' :: tail).reverse = tail.reverse ++ '.' :: stem.reverse := by
    rw [List.reverse_append, List.reverse_cons, List.append_assoc]
    rfl
  have htake : (stem ++ '.' :: tail).reverse.takeWhile (fun ch => decide (ch ≠ '.'))
      = tail.reverse := by
    rw [hrev, List.takeWhile_append_of_pos hall, List.takeWhile_cons_of_neg (by simp),
      List.append_nil]
  have hstemlen : 0 < stem.length := List.length_pos.mpr hstem
  have htaillen : 0 < tail.length := List.length_pos.mpr htail1
  have hlen : (stem ++ '.' :: tail).length = stem.length + tail.length + 1 := by
    rw [List.length_append, List.length_cons]
    omega
  rw [extOfComponent]
  simp only [htake, List.length_reverse, hlen]
  rw [if_neg (by omega), if_neg (by omega), if_neg (by
      intro h
      have := congrArg List.length h
      rw [hlen] at this
      simp at this
      omega),
    List.reverse_reverse]

/-- For every source path whose lowercased extension is supported, the
computed output path differs from the source path. -/
theorem outputPathOf_ne (p : String) (hmem : jsToLower (extname p) ∈ supportedExts) :
    outputPathOf p ≠ p := by
  have hcases : jsToLower (extname p) = ".jpg" ∨ jsToLower (extname p) = ".jpeg"
      ∨ jsToLower (extname p) = ".png" ∨ jsToLower (extname p) = ".webp"
      ∨ jsToLower (extname p) = ".tiff" := by
    simpa [supportedExts] using hmem
  have hE1 : (jsToLower (extname p)).data ≠ [] := by
    rcases hcases with h | h | h | h | h <;> rw [h] <;> decide
  have hE2 : '/' ∉ (jsToLower (extname p)).data := by
    rcases hcases with h | h | h | h | h <;> rw [h] <;> decide
  have hElen : 0 < (jsToLower (extname p)).data.length := List.length_pos.mpr hE1
  have hlc : lastComponentL p.data ≠ [] := by
    intro h0
    have hext : extname p = "" := by rw [extname, h0]; rfl
    rw [hext] at hE1
    exact hE1 rfl
  have hM14 : ("_with_metadata" : String).data.length = 14 := by decide
  have hMslash : '/' ∉ ("_with_metadata" : String).data := by decide
  have hbslash : '/' ∉ (basename p (jsToLower (extname p))).data :=
    basename_no_slash p _ hlc
  have hnamedata : (basename p (jsToLower (extname p)) ++ "_with_metadata"
        ++ jsToLower (extname p)).data
      = ((basename p (jsToLower (extname p))).data ++ ("_with_metadata" : String).data)
        ++ (jsToLower (extname p)).data := by
    rw [String.data_append, String.data_append]
  have hnamelen : (basename p (jsToLower (extname p)) ++ "_with_metadata"
        ++ jsToLower (extname p)).data.length
      = (basename p (jsToLower (extname p))).data.length + 14
        + (jsToLower (extname p)).data.length := by
    rw [hnamedata, List.length_append, List.length_append, hM14]
  have hplain : plainSeg ((basename p (jsToLower (extname p)) ++ "_with_metadata"
        ++ jsToLower (extname p)).data) := by
    refine ⟨?_, ?_, ?_, ?_⟩
    · intro h
      have hl := congrArg List.length h
      rw [hnamelen, List.length_nil] at hl
      omega
    · rw [hnamedata]
      intro h
      rcases List.mem_append.mp h with h | h
      · rcases List.mem_append.mp h with h | h
        · exact hbslash h
        · exact hMslash h
      · exact hE2 h
    · intro h
      have hl := congrArg List.length h
      rw [hnamelen] at hl
      simp only [List.length_cons, List.length_nil] at hl
      omega
    · intro h
      have hl := congrArg List.length h
      rw [hnamelen] at hl
      simp only [List.length_cons, List.length_nil] at hl
      omega
  have hname_ne : basename p (jsToLower (extname p)) ++ "_with_metadata"
      ++ jsToLower (extname p) ≠ "" := by
    intro h
    exact hplain.1 (congrArg String.data h)
  intro heq
  simp only [outputPathOf] at heq
  rw [join2, if_neg (dirname_ne_empty p), if_neg hname_ne, pathNormalize] at heq
  have hdata : normalizeL ((dirname p).data ++ '/' :: (basename p (jsToLower (extname p))
      ++ "_with_metadata" ++ jsToLower (extname p)).data) = p.data :=
    congrArg String.data heq
  obtain ⟨t, ht1, ht2⟩ := normalizeL_concat (dirname p).data
    ((basename p (jsToLower (extname p)) ++ "_with_metadata" ++ jsToLower (extname p)).data)
    hplain
  rw [ht1] at hdata
  have hlast : lastComponentL p.data
      = (basename p (jsToLower (extname p)) ++ "_with_metadata"
          ++ jsToLower (extname p)).data := by
    rw [← hdata]
    exact lastComponentL_concat t _ hplain.1 hplain.2.1 ht2
  have hplen : p.data.length = t.length
      + ((basename p (jsToLower (extname p))).data.length + 14
        + (jsToLower (extname p)).data.length) := by
    have hl := congrArg List.length hdata
    rw [List.length_append, hnamelen] at hl
    omega
  have hfin : basename p (jsToLower (extname p))
      = ⟨(basename p (jsToLower (extname p))).data ++ ("_with_metadata" : String).data⟩ := by
    refine basename_strip p (jsToLower (extname p))
      ((basename p (jsToLower (extname p))).data ++ ("_with_metadata" : String).data)
      hE1 ?_ ?_ ?_ ?_
    · omega
    · intro h
      have hl : (jsToLower (extname p)).data.length = p.data.length :=
        congrArg (fun s : String => s.data.length) h
      omega
    · rw [hlast, hnamedata]
    · intro h
      have hl := congrArg List.length h
      rw [List.length_append, hM14, List.length_nil] at hl
      omega
  have hcontr : (basename p (jsToLower (extname p))).data.length
      = ((basename p (jsToLower (extname p))).data
          ++ ("_with_metadata" : String).data).length :=
    congrArg (fun s : String => s.data.length) hfin
  rw [List.length_append, hM14] at hcontr
  omega

/-- Shape of the output path on a normalized relative directory, a
separator-free stem and a supported lowercase extension `"." ++ tail`. -/
theorem outputPathOf_structured (d stem e : String) (tail : List Char)
    (hd : plainDir d)
    (hstem1 : stem.data ≠ []) (hstem2 : '/' ∉ stem.data)
    (he : e.data = '.' :: tail) (htail1 : tail ≠ [])
    (htail2 : '.' ∉ tail) (htail3 : '/' ∉ tail)
    (hlow : jsToLower e = e) :
    outputPathOf (d ++ "/" ++ stem ++ e) = d ++ "/" ++ stem ++ "_with_metadata" ++ e := by
  have hd1 : d.data ≠ [] := by
    intro h
    refine (hd [] ?_).1 rfl
    rw [h]
    decide
  have hd2 : d.data ≠ ['/'] := by
    intro h
    refine (hd [] ?_).1 rfl
    rw [h]
    decide
  have heslash : '/' ∉ e.data := by
    rw [he]
    intro h
    rcases List.mem_cons.mp h with h | h
    · exact absurd h (by decide)
    · exact htail3 h
  have hcomp1 : stem.data ++ e.data ≠ [] := by
    intro h
    exact hstem1 (List.append_eq_nil.mp h).1
  have hcomp2 : '/' ∉ stem.data ++ e.data := by
    intro h
    rcases List.mem_append.mp h with h | h
    · exact hstem2 h
    · exact heslash h
  have hpdata : (d ++ "/" ++ stem ++ e).data
      = (d.data ++ ['/']) ++ (stem.data ++ e.data) := by
    rw [String.data_append, String.data_append, String.data_append]
    simp [List.append_assoc]
  have hlast : lastComponentL (d ++ "/" ++ stem ++ e).data = stem.data ++ e.data := by
    rw [hpdata]
    exact lastComponentL_concat _ _ hcomp1 hcomp2 (Or.inr ⟨d.data, rfl⟩)
  have hext : extname (d ++ "/" ++ stem ++ e) = e := by
    refine stringDataInj ?_
    rw [extname]
    show extOfComponent (lastComponentL (d ++ "/" ++ stem ++ e).data) = e.data
    rw [hlast, he, extOfComponent_concat stem.data tail hstem1 htail1 htail2]
  have hplen : (d ++ "/" ++ stem ++ e).data.length
      = d.data.length + 1 + (stem.data.length + e.data.length) := by
    have hl := congrArg List.length hpdata
    rw [List.length_append, List.length_append] at hl
    simpa using hl
  have hstemlen : 0 < stem.data.length := List.length_pos.mpr hstem1
  have hdlen : 0 < d.data.length := List.length_pos.mpr hd1
  have helen : 0 < e.data.length := by rw [he]; simp
  have hbase : basename (d ++ "/" ++ stem ++ e) e = stem := by
    have hb := basename_strip (d ++ "/" ++ stem ++ e) e stem.data
      (by rw [he]; simp) (by omega)
      (by
        intro h
        have hl : e.data.length = (d ++ "/" ++ stem ++ e).data.length :=
          congrArg (fun s : String => s.data.length) h
        omega)
      hlast hstem1
    rw [hb]
  have hdir : dirname (d ++ "/" ++ stem ++ e) = d := by
    have hps : (d ++ "/" ++ stem ++ e) = ⟨d.data ++ '/' :: (stem.data ++ e.data)⟩ := by
      refine stringDataInj ?_
      rw [hpdata]
      simp
    rw [hps]
    have hdc := dirname_concat d.data (stem.data ++ e.data) hcomp1 hcomp2 hd1 hd2
    rw [hdc]
  have hnamedata : (stem ++ "_with_metadata" ++ e).data
      = (stem.data ++ ("_with_metadata" : String).data) ++ e.data := by
    rw [String.data_append, String.data_append]
  have hnameplain : plainSeg ((stem ++ "_with_metadata" ++ e).data) := by
    have hlen : (stem ++ "_with_metadata" ++ e).data.length
        = stem.data.length + 14 + e.data.length := by
      rw [hnamedata, List.length_append, List.length_append]
      simp only [show ("_with_metadata" : String).data.length = 14 from by decide]
    refine ⟨?_, ?_, ?_, ?_⟩
    · intro h
      have hl := congrArg List.length h
      rw [hlen, List.length_nil] at hl
      omega
    · rw [hnamedata]
      intro h
      rcases List.mem_append.mp h with h | h
      · rcases List.mem_append.mp h with h | h
        · exact hstem2 h
        · exact absurd h (by decide)
      · exact heslash h
    · intro h
      have hl := congrArg List.length h
      rw [hlen] at hl
      simp only [List.length_cons, List.length_nil] at hl
      omega
    · intro h
      have hl := congrArg List.length h
      rw [hlen] at hl
      simp only [List.length_cons, List.length_nil] at hl
      omega
  have hname_ne : stem ++ "_with_metadata" ++ e ≠ "" := by
    intro h
    exact hnameplain.1 (congrArg String.data h)
  have hd_ne : d ≠ "" := by
    intro h
    exact hd1 (congrArg String.data h)
  simp only [outputPathOf, hext, hlow, hbase, hdir]
  rw [join2, if_neg hd_ne, if_neg hname_ne, pathNormalize]
  refine stringDataInj ?_
  show normalizeL (d.data ++ '/' :: (stem ++ "_with_metadata" ++ e).data)
      = (d ++ "/" ++ stem ++ "_with_metadata" ++ e).data
  rw [normalizeL_plain_concat d.data _ hd hnameplain]
  rw [String.data_append, String.data_append, String.data_append]
  simp [List.append_assoc]

/-- The trace of `addImageMetadata` is the trace of its `try` body. -/
theorem addImageMetadata_fst (env : Env) (ip : Option String) (md : Option ImageMetadata) :
    (addImageMetadata env ip md).fst = (addImageMetadataTry env ip md).fst := by
  rw [addImageMetadata]
  rcases h : addImageMetadataTry env ip md with ⟨ops, r⟩
  cases r <;> rfl

/-- Success values pass through the `catch` wrapper unchanged. -/
theorem addImageMetadata_snd_ok (env : Env) (ip : Option String) (md : Option ImageMetadata)
    (r : EmbedResult) :
    (addImageMetadata env ip md).snd = Except.ok r
      ↔ (addImageMetadataTry env ip md).snd = Except.ok r := by
  rw [addImageMetadata]
  rcases h : addImageMetadataTry env ip md with ⟨ops, r0⟩
  cases r0 <;> simp

/-- Claim C2 (amended): for every accepted sourcePath the outputPath of a
successful result equals
`path.join(path.dirname(p), path.basename(p, ext) ++ "_with_metadata" ++ ext)`
with `ext` the lowercased extension, and never equals the sourcePath; for a
sourcePath `d/stem.ext` with a normalized relative directory `d`, a
separator-free stem and a lowercase supported extension this is exactly
`<dir>/<basename>_with_metadata<ext>`.  (The original extension is preserved
only up to lowercasing, and the directory only up to normalization.) -/
theorem addImageMetadata_outputPath_derivation :
    (∀ (env : Env) (p : String) (md : ImageMetadata) (r : EmbedResult),
      (addImageMetadata env (some p) (some md)).snd = Except.ok r →
      r.outputPath = outputPathOf p ∧ r.outputPath ≠ p)
    ∧ (∀ d stem : String, ∀ e ∈ supportedExts, plainDir d → stem.data ≠ [] →
        '/' ∉ stem.data →
      outputPathOf (d ++ "/" ++ stem ++ e) = d ++ "/" ++ stem ++ "_with_metadata" ++ e) := by
  constructor
  · intro env p md r h
    rw [addImageMetadata_snd_ok] at h
    by_cases hp : p = ""
    · simp [addImageMetadataTry, hp] at h
    · by_cases hfs : env.fsExists p
      · by_cases h1 : jsToLower (extname p) = ".jpg" ∨ jsToLower (extname p) = ".jpeg"
        · have hmem : jsToLower (extname p) ∈ supportedExts := by
            rcases h1 with h1 | h1 <;> simp [supportedExts, h1]
          rcases henc : env.encode p (outputPathOf p) with _ | msg
          · rcases h1 with h1 | h1 <;>
              simp [addImageMetadataTry, hp, hfs, h1, handleJpegMetadata, runSharp, henc] at h <;>
              rw [← h] <;>
              exact ⟨rfl, outputPathOf_ne p hmem⟩
          · rcases h1 with h1 | h1 <;>
              simp [addImageMetadataTry, hp, hfs, h1, handleJpegMetadata, runSharp, henc] at h
        · by_cases h2 : jsToLower (extname p) = ".png"
          · have hmem : jsToLower (extname p) ∈ supportedExts := by simp [supportedExts, h2]
            rcases henc : env.encode p (outputPathOf p) with _ | msg
            · simp [addImageMetadataTry, hp, hfs, h1, h2, handlePngMetadata, runSharp, henc] at h
              rw [← h]
              exact ⟨rfl, outputPathOf_ne p hmem⟩
            · simp [addImageMetadataTry, hp, hfs, h1, h2, handlePngMetadata, runSharp, henc] at h
          · by_cases h3 : jsToLower (extname p) = ".webp"
            · have hmem : jsToLower (extname p) ∈ supportedExts := by simp [supportedExts, h3]
              rcases henc : env.encode p (outputPathOf p) with _ | msg
              · simp [addImageMetadataTry, hp, hfs, h1, h2, h3, handleWebPMetadata, runSharp,
                  henc] at h
                rw [← h]
                exact ⟨rfl, outputPathOf_ne p hmem⟩
              · simp [addImageMetadataTry, hp, hfs, h1, h2, h3, handleWebPMetadata, runSharp,
                  henc] at h
            · by_cases h4 : jsToLower (extname p) = ".tiff"
              · have hmem : jsToLower (extname p) ∈ supportedExts := by
                  simp [supportedExts, h4]
                rcases henc : env.encode p (outputPathOf p) with _ | msg
                · simp [addImageMetadataTry, hp, hfs, h1, h2, h3, h4, handleTiffMetadata,
                    runSharp, henc] at h
                  rw [← h]
                  exact ⟨rfl, outputPathOf_ne p hmem⟩
                · simp [addImageMetadataTry, hp, hfs, h1, h2, h3, h4, handleTiffMetadata,
                    runSharp, henc] at h
              · simp [addImageMetadataTry, hp, hfs, h1, h2, h3, h4] at h
      · simp [addImageMetadataTry, hp, hfs] at h
  · intro d stem e hmem hd hs1 hs2
    simp only [supportedExts, List.mem_cons, List.not_mem_nil, or_false] at hmem
    rcases hmem with h | h | h | h | h <;> subst h
    · exact outputPathOf_structured d stem ".jpg" ['j', 'p', 'g'] hd hs1 hs2
        (by decide) (by decide) (by decide) (by decide) (by decide)
    · exact outputPathOf_structured d stem ".jpeg" ['j', 'p', 'e', 'g'] hd hs1 hs2
        (by decide) (by decide) (by decide) (by decide) (by decide)
    · exact outputPathOf_structured d stem ".png" ['p', 'n', 'g'] hd hs1 hs2
        (by decide) (by decide) (by decide) (by decide) (by decide)
    · exact outputPathOf_structured d stem ".webp" ['w', 'e', 'b', 'p'] hd hs1 hs2
        (by decide) (by decide) (by decide) (by decide) (by decide)
    · exact outputPathOf_structured d stem ".tiff" ['t', 'i', 'f', 'f'] hd hs1 hs2
        (by decide) (by decide) (by decide) (by decide) (by decide)

/-- Claim C2 (witness for the amended theorem): a concrete successful call
and a concrete structured path. -/
theorem addImageMetadata_outputPath_derivation_witness :
    (("images/photo_with_metadata.jpg" : String) = outputPathOf "images/photo.jpg"
      ∧ ("images/photo_with_metadata.jpg" : String) ≠ "images/photo.jpg")
    ∧ outputPathOf ("images" ++ "/" ++ "photo" ++ ".jpg")
        = "images" ++ "/" ++ "photo" ++ "_with_metadata" ++ ".jpg" :=
  ⟨addImageMetadata_outputPath_derivation.1 envOk "images/photo.jpg" mdSample
      ⟨"success", "images/photo_with_metadata.jpg", "Metadata added successfully"⟩ (by decide),
   addImageMetadata_outputPath_derivation.2 "images" "photo" ".jpg" (by decide) (by decide)
      (by decide) (by decide)⟩

/-- Claim C8: on every call, every write operation in the trace targets the
derived output path, which is never the source path — the source file is
only ever read (`fs.access` / image read), never written. -/
theorem addImageMetadata_writes_only_output (env : Env) (ip : Option String)
    (md : Option ImageMetadata) (q : String) (pl : Payload)
    (h : Op.writeImage q pl ∈ (addImageMetadata env ip md).fst) :
    ∃ p, ip = some p ∧ q = outputPathOf p ∧ q ≠ p := by
  rw [addImageMetadata_fst] at h
  cases ip with
  | none => cases md <;> simp [addImageMetadataTry] at h
  | some p =>
    cases md with
    | none => simp [addImageMetadataTry] at h
    | some m =>
      refine ⟨p, rfl, ?_⟩
      by_cases hp : p = ""
      · simp [addImageMetadataTry, hp] at h
      · by_cases hfs : env.fsExists p
        · by_cases h1 : jsToLower (extname p) = ".jpg" ∨ jsToLower (extname p) = ".jpeg"
          · have hmem : jsToLower (extname p) ∈ supportedExts := by
              rcases h1 with h1 | h1 <;> simp [supportedExts, h1]
            rcases henc : env.encode p (outputPathOf p) with _ | msg
            · rcases h1 with h1 | h1 <;>
                simp [addImageMetadataTry, hp, hfs, h1, handleJpegMetadata, runSharp,
                  henc] at h <;>
                exact ⟨h.1, h.1 ▸ outputPathOf_ne p hmem⟩
            · rcases h1 with h1 | h1 <;>
                simp [addImageMetadataTry, hp, hfs, h1, handleJpegMetadata, runSharp,
                  henc] at h
          · by_cases h2 : jsToLower (extname p) = ".png"
            · have hmem : jsToLower (extname p) ∈ supportedExts := by simp [supportedExts, h2]
              rcases henc : env.encode p (outputPathOf p) with _ | msg
              · simp [addImageMetadataTry, hp, hfs, h1, h2, handlePngMetadata, runSharp,
                  henc] at h
                exact ⟨h.1, h.1 ▸ outputPathOf_ne p hmem⟩
              · simp [addImageMetadataTry, hp, hfs, h1, h2, handlePngMetadata, runSharp,
                  henc] at h
            · by_cases h3 : jsToLower (extname p) = ".webp"
              · have hmem : jsToLower (extname p) ∈ supportedExts := by
                  simp [supportedExts, h3]
                rcases henc : env.encode p (outputPathOf p) with _ | msg
                · simp [addImageMetadataTry, hp, hfs, h1, h2, h3, handleWebPMetadata, runSharp,
                    henc] at h
                  exact ⟨h.1, h.1 ▸ outputPathOf_ne p hmem⟩
                · simp [addImageMetadataTry, hp, hfs, h1, h2, h3, handleWebPMetadata, runSharp,
                    henc] at h
              · by_cases h4 : jsToLower (extname p) = ".tiff"
                · have hmem : jsToLower (extname p) ∈ supportedExts := by
                    simp [supportedExts, h4]
                  rcases henc : env.encode p (outputPathOf p) with _ | msg
                  · simp [addImageMetadataTry, hp, hfs, h1, h2, h3, h4, handleTiffMetadata,
                      runSharp, henc] at h
                    exact ⟨h.1, h.1 ▸ outputPathOf_ne p hmem⟩
                  · simp [addImageMetadataTry, hp, hfs, h1, h2, h3, h4, handleTiffMetadata,
                      runSharp, henc] at h
                · simp [addImageMetadataTry, hp, hfs, h1, h2, h3, h4] at h
        · simp [addImageMetadataTry, hp, hfs] at h

/-- Claim C8 (witness): the write of a concrete successful call targets the
derived output path and not the source. -/
theorem addImageMetadata_writes_only_output_witness :
    ∃ p, (some "images/photo.jpg" : Option String) = some p
      ∧ "images/photo_with_metadata.jpg" = outputPathOf p
      ∧ "images/photo_with_metadata.jpg" ≠ p :=
  addImageMetadata_writes_only_output envOk (some "images/photo.jpg") (some mdSample)
    "images/photo_with_metadata.jpg"
    (Payload.jpeg (jpegExifMetadata mdSample) (jpegIptcMetadata mdSample))
    (by decide)
